import Mathlib

/-!
Verification of the grec interval-based color composition engine
(`grec/grec.py`): the `Intervals` mapping, `ColoredString.apply_color`,
and the `Matcher` pipeline, shallowly embedded over association lists.

The Python `dict` held in `Intervals.data` is modelled as an association
list with unique keys.  No grec operation depends on the dict's internal
insertion order (`Intervals.__iter__` sorts its keys, `Intervals.overlap`
returns a set), so dictionary assignment is modelled canonically as
"remove the key, then append the new binding".
-/

namespace Grec

/-- A half-open interval `[start, end)` over string indices: a pair of
Python integers, as in `grec.Intervals`. -/
abbrev Interval : Type := Int × Int

/-- The backing store of an `Intervals` instance (`self.data`): a finite
mapping from intervals to opaque payloads, as an association list. -/
abbrev Store (α : Type) : Type := List (Interval × α)

/-- Dictionary lookup `self.data[key]`, returning `none` for a missing key. -/
def dictGet {α : Type} (m : Store α) (k : Interval) : Option α :=
  (m.find? (fun x => decide (x.1 = k))).map (fun x => x.2)

/-- Dictionary assignment `self.data[key] = value` (no interval check):
remove any existing binding of `key`, append the new one. -/
def dictSet {α : Type} (m : Store α) (k : Interval) (v : α) : Store α :=
  m.filter (fun x => decide (x.1 ≠ k)) ++ [(k, v)]

/-- Dictionary deletion `del self.data[key]` (`Intervals.__delitem__`). -/
def dictDel {α : Type} (m : Store α) (k : Interval) : Store α :=
  m.filter (fun x => decide (x.1 ≠ k))

/-- `Intervals.__setitem__`: asserts that the end of the interval is
strictly greater than its start, then stores the binding.  A failed
assertion (an `AssertionError` in Python) is modelled as `none`. -/
def setItem {α : Type} (m : Store α) (k : Interval) (v : α) : Option (Store α) :=
  if k.1 < k.2 then some (dictSet m k v) else none

/-- `Intervals._interval_overlap`: true iff the two half-open intervals
overlap (`start1 < end2 and end1 > start2`). -/
def interval_overlap (i1 i2 : Interval) : Bool :=
  decide (i1.1 < i2.2) && decide (i1.2 > i2.1)

/-- `Intervals.overlap`: all stored intervals overlapping the given one.
Python returns a `set`; with unique keys this list is duplicate-free, so
the set is modelled as the list of matching keys in store order. -/
def overlap {α : Type} (m : Store α) (i : Interval) : List Interval :=
  (m.map Prod.fst).filter (fun k => interval_overlap k i)

/-- The body of the truncation loop in `ColoredString.apply_color`, for
one overlapping interval `k`: re-insert the left and right remainders
that are not obscured by the new interval `(s, e)`, then delete `k`.
The loop reads `self.intervals[interval]` while iterating; since the
remainder keys always differ from `k` for any `k` overlapping `(s, e)`,
reading the value once up front is equivalent.  The `none` branch
(missing key) is unreachable from `apply_color`, which only passes keys
of the store. -/
def truncate_step {α : Type} (s e : Int) (m : Store α) (k : Interval) : Store α :=
  match dictGet m k with
  | none => m
  | some v =>
    let m1 := if k.1 < s then dictSet m (k.1, s) v else m
    let m2 := if e < k.2 then dictSet m1 (e, k.2) v else m1
    dictDel m2 k

/-- The whole truncation loop of `ColoredString.apply_color`: process
every interval of the store overlapping `(s, e)`.  The overlap set is
computed once, before any mutation, exactly as in the source. -/
def truncate_overlaps {α : Type} (m : Store α) (s e : Int) : Store α :=
  (overlap m (s, e)).foldl (truncate_step s e) m

/-- `ColoredString.apply_color start end color_info`: truncate the
overlapping intervals, then set the new interval.  The final
`self.intervals[(start, end)] = color_info` goes through
`Intervals.__setitem__` and hence fails (returns `none`) when
`start >= end`; the truncation performed before the failure is the
state the Python object is left in. -/
def apply_color {α : Type} (s e : Int) (c : α) (m : Store α) : Option (Store α) :=
  setItem (truncate_overlaps m s e) (s, e) c

/-- Does position `p` lie inside the half-open interval `k`? -/
def covers (k : Interval) (p : Int) : Bool :=
  decide (k.1 ≤ p) && decide (p < k.2)

/-- Is character position `p` colored `c` by some interval of the store? -/
def has_color {α : Type} [DecidableEq α] (m : Store α) (p : Int) (c : α) : Bool :=
  m.any (fun x => covers x.1 p && decide (x.2 = c))

/-- All colors assigned to character position `p` by the store. -/
def colors_at {α : Type} (m : Store α) (p : Int) : List α :=
  (m.filter (fun x => covers x.1 p)).map (fun x => x.2)

/-- Every key of the store is a valid interval (`start < end`), the
invariant enforced by `Intervals.__setitem__`. -/
def valid_keys {α : Type} (m : Store α) : Prop :=
  ∀ x ∈ m, x.1.1 < x.1.2

/-- No two stored intervals overlap: the central invariant of the
interval store, maintained by `apply_color`. -/
def pairwise_no_overlap {α : Type} (m : Store α) : Prop :=
  m.Pairwise (fun x y => interval_overlap x.1 y.1 = false)

/-- The two store invariants together. -/
def store_inv {α : Type} (m : Store α) : Prop :=
  valid_keys m ∧ pairwise_no_overlap m

/-- The left/right remainders contributed by truncating one stored
interval `k` (with payload `v`) against a new interval `(s, e)`. -/
def rems {α : Type} (s e : Int) (k : Interval) (v : α) : Store α :=
  (if k.1 < s then [((k.1, s), v)] else []) ++
    (if e < k.2 then [((e, k.2), v)] else [])

/-- The remainders of key `k`, looking its payload up in `m`. -/
def remsOf {α : Type} (m : Store α) (s e : Int) (k : Interval) : Store α :=
  match dictGet m k with
  | some v => rems s e k v
  | none => []

/-! ### The matcher layer (`grec.Matcher`)

The regular-expression engine is an external collaborator (Python's
`re` module).  A compiled regex is modelled as an oracle: a function
from the input text to the list of `finditer` match results, each
carrying the whole-match span (`re_match.span()`, i.e. `regs[0]`) and
the capture-group spans (`re_match.regs[1:]`).  Python reports a
capture group that did not participate in a match with the sentinel
span `(-1, -1)`. -/

/-- Input text, indexed by integer positions. -/
abbrev Text : Type := List Char

/-- One `finditer` match result: the whole-match span `regs[0]` and the
capture-group spans `regs[1:]`. -/
structure MatchRes where
  span : Interval
  groups : List Interval
deriving DecidableEq

/-- The color information of a pattern: `{'group': False}` patterns
carry one payload for the whole match, `{'group': True}` patterns carry
one payload per capture group. -/
inductive PatternInfo (α : Type) : Type
  | whole : α → PatternInfo α
  | group : List α → PatternInfo α

/-- One entry of `Matcher.patterns`: the compiled regex (as a match
oracle) and its color information. -/
structure Pattern (α : Type) : Type where
  regex : Text → List MatchRes
  info : PatternInfo α

/-- `itertools.zip_longest(xs, ys, fillvalue=fill)` specialised to the
use in `Matcher.match`, where `ys` is never longer than `xs` (the color
list was truncated to the interval count first). -/
def zip_fill {α : Type} : List Interval → List α → α → List (Interval × α)
  | [], _, _ => []
  | x :: xs, [], fill => (x, fill) :: zip_fill xs [] fill
  | x :: xs, y :: ys, fill => (x, y) :: zip_fill xs ys fill

/-- The interval/payload pairs queued for one match, from the body of
`Matcher.match`: truncate the colors to the number of intervals; if no
colors remain the match is skipped (empty queue); otherwise pair
intervals with colors, repeating the last color for excess intervals
(`zip_longest` with `fillvalue=colors[-1]`). -/
def match_pairs {α : Type} (intervals : List Interval) (colors : List α) :
    List (Interval × α) :=
  let colors2 := colors.take intervals.length
  match colors2.getLast? with
  | none => []
  | some lastc => zip_fill intervals colors2 lastc

/-- Apply a queue of interval/payload insertions to the store in order,
each through `apply_color`; an assertion failure aborts the whole
computation, as the exception propagates out of `Matcher.match`. -/
def apply_list {α : Type} : List (Interval × α) → Store α → Option (Store α)
  | [], st => some st
  | q :: rest, st =>
    match apply_color q.1.1 q.1.2 q.2 st with
    | none => none
    | some st2 => apply_list rest st2

/-- The insertion queue of one match result: for a whole-match pattern
the single pair `(span, payload)`; for a group pattern one pair per
capture-group span, per the truncate/repeat rule of `match_pairs`. -/
def match_queue {α : Type} (info : PatternInfo α) (mr : MatchRes) :
    List (Interval × α) :=
  match info with
  | .whole c => match_pairs [mr.span] [c]
  | .group cs => match_pairs mr.groups cs

/-- Process the matches of one pattern, in `finditer` order. -/
def run_matches {α : Type} (info : PatternInfo α) :
    List MatchRes → Store α → Option (Store α)
  | [], st => some st
  | mr :: rest, st =>
    match apply_list (match_queue info mr) st with
    | none => none
    | some st2 => run_matches info rest st2

/-- Process one pattern of `Matcher.match` against the text. -/
def run_pattern {α : Type} (st : Store α) (pt : Pattern α) (text : Text) :
    Option (Store α) :=
  run_matches pt.info (pt.regex text) st

/-- Process the patterns in application order. -/
def run_rules {α : Type} : List (String × Pattern α) → Text → Store α →
    Option (Store α)
  | [], _, st => some st
  | r :: rest, text, st =>
    match run_pattern st r.2 text with
    | none => none
    | some st2 => run_rules rest text st2

/-- `Matcher.match text`: start from the empty interval store of a fresh
`ColoredString` and process every configured pattern in order, returning
the populated store (the `intervals` of the returned `ColoredString`),
or `none` if an insertion raised. -/
def matcher_match {α : Type} (ms : List (String × Pattern α)) (text : Text) :
    Option (Store α) :=
  run_rules ms text []

/-- The full insertion queue generated by one rule on a text: the
concatenation of the per-match queues, in `finditer` order. -/
def rule_insertions {α : Type} (pt : Pattern α) (text : Text) :
    List (Interval × α) :=
  ((pt.regex text).map (match_queue pt.info)).flatten

/-- `OrderedDict` assignment `self.patterns[regex] = pattern`: replaces
in place when the key is present, appends otherwise. -/
def odictSet {α : Type} (ms : List (String × α)) (k : String) (v : α) :
    List (String × α) :=
  if ms.any (fun x => decide (x.1 = k)) then
    ms.map (fun x => if x.1 = k then (k, v) else x)
  else
    ms ++ [(k, v)]

/-- `Matcher._add_to_patterns`: delete an already-present regex first so
that the subsequent `OrderedDict` assignment re-adds it at the end of
the application order. -/
def add_to_patterns {α : Type} (ms : List (String × α)) (regex : String)
    (pattern : α) : List (String × α) :=
  odictSet
    (if ms.any (fun x => decide (x.1 = regex)) then
      ms.filter (fun x => decide (x.1 ≠ regex))
    else ms)
    regex pattern

/-- A whole-match rule (`Matcher.add_pattern`), given its match oracle
and payload. -/
def whole_rule {α : Type} (f : Text → List MatchRes) (c : α) : Pattern α :=
  ⟨f, .whole c⟩

/-- A capture-group rule (`Matcher.add_group_pattern`), given its match
oracle and payload list. -/
def group_rule {α : Type} (f : Text → List MatchRes) (cs : List α) : Pattern α :=
  ⟨f, .group cs⟩

/-! ### Concrete regex oracles

These model the documented behaviour of Python's `re.finditer` — the
external regex collaborator — on the specific patterns and inputs used
by the concrete scenarios below. -/

/-- Leftmost, sequential, non-overlapping occurrences of the literal
pattern `pat` in the scanned text, matching `re.finditer` semantics for
a metacharacter-free pattern.  `fuel` bounds the number of scan steps;
callers pass the text length, which always suffices because every step
consumes at least one character. -/
def lit_scan (pat : List Char) : Nat → List Char → Int → List Interval
  | 0, _, _ => []
  | _, [], _ => []
  | fuel + 1, ch :: rest, pos =>
    if pat.length ≠ 0 ∧ (ch :: rest).take pat.length = pat then
      (pos, pos + (pat.length : Int)) ::
        lit_scan pat fuel ((ch :: rest).drop pat.length) (pos + (pat.length : Int))
    else
      lit_scan pat fuel rest (pos + 1)

/-- The match oracle of a compiled literal (metacharacter-free) regex:
whole-match spans only, no capture groups. -/
def lit_regex (pat : String) : Text → List MatchRes :=
  fun text => (lit_scan pat.toList text.length text 0).map (fun sp => ⟨sp, []⟩)

/-- The store of the overlap-query scenario: `{(1, 5): _, (6, 8): _}`. -/
def c4_store : Store Unit := [((1, 5), ()), ((6, 8), ())]

/-- The overlap-truncation scenario: rules `("ax", red)`, `("xc", green)`,
`("xbx", blue)`, in that order of addition. -/
def scenario_rules : List (String × Pattern String) :=
  [("ax", whole_rule (lit_regex "ax") "red"),
   ("xc", whole_rule (lit_regex "xc") "green"),
   ("xbx", whole_rule (lit_regex "xbx") "blue")]

/-- The input of the overlap-truncation scenario. -/
def scenario_text : Text := "axbxc".toList

/-- The interval store produced by the overlap-truncation scenario. -/
def scenario_store : Store String :=
  [((0, 1), "red"), ((4, 5), "green"), ((1, 4), "blue")]

/-- Models `re.finditer` for the pattern `(a)(b)(c)` on the input
`"abc"`: one match spanning `(0, 3)` with the three capture groups at
`(0, 1)`, `(1, 2)` and `(2, 3)`.  Other inputs are unused. -/
def tri_regex : Text → List MatchRes :=
  fun t => if t = "abc".toList then [⟨(0, 3), [(0, 1), (1, 2), (2, 3)]⟩] else []

/-- A matcher holding one group rule with three capture groups but only
two payloads. -/
def tri_matcher : List (String × Pattern String) :=
  [("(a)(b)(c)", group_rule tri_regex ["P1", "P2"])]

/-- The input of the three-group scenario. -/
def text_abc : Text := "abc".toList

/-- Models `re.finditer` for the pattern `(a)|(b)` on the input `"a"`:
one match spanning `(0, 1)`; capture group 1 participates with span
`(0, 1)`, capture group 2 does not participate and is reported by
Python's `re_match.regs` with the sentinel span `(-1, -1)`.  Other
inputs are unused. -/
def alt_regex : Text → List MatchRes :=
  fun t => if t = ['a'] then [⟨(0, 1), [(0, 1), (-1, -1)]⟩] else []

/-- A matcher holding one group rule whose pattern is the alternation
`(a)|(b)`, with a single payload. -/
def alt_matcher : List (String × Pattern String) :=
  [("(a)|(b)", group_rule alt_regex ["c1"])]

/-- The input `"a"` of the alternation scenario. -/
def text_a : Text := ['a']

/-- Models `re.finditer` for the pattern `(?:(a)|(b))+` on the input
`"ba"`: one match spanning `(0, 2)`; the last repetition captures give
group 1 the span `(1, 2)` (the trailing `a`) and group 2 the span
`(0, 1)` (the leading `b`), so the capture-group spans are not in
ascending start order.  Other inputs are unused. -/
def ba_regex : Text → List MatchRes :=
  fun t => if t = ['b', 'a'] then [⟨(0, 2), [(1, 2), (0, 1)]⟩] else []

/-- A group rule on the repeated-alternation pattern, with two payloads. -/
def ba_rule : Pattern String := group_rule ba_regex ["c1", "c2"]

/-- The input `"ba"` of the repeated-alternation scenario. -/
def text_ba : Text := ['b', 'a']

/-! ### Basic lemmas about the store operations -/

theorem interval_overlap_true_iff {a b : Interval} :
    interval_overlap a b = true ↔ a.1 < b.2 ∧ b.1 < a.2 := by
  simp [interval_overlap]

theorem interval_overlap_false_iff {a b : Interval} :
    interval_overlap a b = false ↔ ¬(a.1 < b.2 ∧ b.1 < a.2) := by
  rw [← Bool.not_eq_true, interval_overlap_true_iff]

theorem interval_overlap_comm (a b : Interval) :
    interval_overlap a b = interval_overlap b a := by
  by_cases h1 : a.1 < b.2 <;> by_cases h2 : b.1 < a.2 <;>
    simp [interval_overlap, h1, h2]

theorem covers_true_iff {k : Interval} {p : Int} :
    covers k p = true ↔ k.1 ≤ p ∧ p < k.2 := by
  simp [covers]

theorem has_color_true_iff {α : Type} [DecidableEq α] {m : Store α} {p : Int}
    {c : α} :
    has_color m p c = true ↔ ∃ x ∈ m, (x.1.1 ≤ p ∧ p < x.1.2) ∧ x.2 = c := by
  simp [has_color, covers, List.any_eq_true, and_assoc]

theorem bool_eq_of_true_iff {a b : Bool} (h : a = true ↔ b = true) : a = b := by
  cases a <;> cases b <;> simp_all

theorem mem_dictDel {α : Type} {m : Store α} {k : Interval} {x : Interval × α} :
    x ∈ dictDel m k ↔ x ∈ m ∧ x.1 ≠ k := by
  simp [dictDel, List.mem_filter]

theorem mem_rems_iff {α : Type} {s e : Int} {k : Interval} {v : α}
    {x : Interval × α} :
    x ∈ rems s e k v ↔
      (k.1 < s ∧ x = ((k.1, s), v)) ∨ (e < k.2 ∧ x = ((e, k.2), v)) := by
  by_cases g1 : k.1 < s <;> by_cases g2 : e < k.2 <;> simp [rems, g1, g2]

theorem dictGet_mem {α : Type} {m : Store α} {k : Interval} {v : α}
    (h : dictGet m k = some v) : (k, v) ∈ m := by
  unfold dictGet at h
  obtain ⟨x, hfind, hx2⟩ := Option.map_eq_some'.mp h
  have hk := List.find?_some hfind
  have hmem := List.mem_of_find?_eq_some hfind
  simp only [decide_eq_true_eq] at hk
  have : x = (k, v) := by
    cases x
    simp_all
  rwa [this] at hmem

theorem dictGet_eq_some_of_mem_unique {α : Type} {m : Store α} {k : Interval}
    {v : α} (hmem : (k, v) ∈ m) (huniq : ∀ v', (k, v') ∈ m → v' = v) :
    dictGet m k = some v := by
  induction m with
  | nil => simp at hmem
  | cons x t ih =>
    by_cases hx : x.1 = k
    · have hxkv : x = (k, x.2) := by cases x; simp_all
      have : x.2 = v := huniq x.2 (by rw [← hxkv]; exact List.mem_cons_self x t)
      unfold dictGet
      rw [List.find?_cons_of_pos _ (by simp [hx])]
      simp [this]
    · have hmem' : (k, v) ∈ t := by
        rcases List.mem_cons.mp hmem with h | h
        · exact absurd (by rw [← h]) hx
        · exact h
      have huniq' : ∀ v', (k, v') ∈ t → v' = v := fun v' hv' =>
        huniq v' (List.mem_cons_of_mem x hv')
      have := ih hmem' huniq'
      unfold dictGet at this ⊢
      rwa [List.find?_cons_of_neg _ (by simp [hx])]

theorem mem_map_fst_unique {α : Type} {m : Store α}
    (hU : (m.map Prod.fst).Nodup) :
    ∀ {k : Interval} {v v' : α}, (k, v) ∈ m → (k, v') ∈ m → v = v' := by
  induction m with
  | nil => intro k v v' h; simp at h
  | cons x t ih =>
    intro k v v' hv hv'
    rw [List.map_cons, List.nodup_cons] at hU
    have hkx : x.1 = k → k ∉ t.map Prod.fst := fun hk => by
      rw [← hk]
      exact hU.1
    rcases List.mem_cons.mp hv with h1 | h1 <;>
      rcases List.mem_cons.mp hv' with h2 | h2
    · have := h1.trans h2.symm
      simpa using this
    · exact absurd (List.mem_map.mpr ⟨(k, v'), h2, rfl⟩)
        (hkx (congrArg Prod.fst h1).symm)
    · exact absurd (List.mem_map.mpr ⟨(k, v), h1, rfl⟩)
        (hkx (congrArg Prod.fst h2).symm)
    · exact ih hU.2 h1 h2

theorem dictGet_eq_some_of_mem_nodup {α : Type} {m : Store α} {k : Interval}
    {v : α} (hU : (m.map Prod.fst).Nodup) (hmem : (k, v) ∈ m) :
    dictGet m k = some v :=
  dictGet_eq_some_of_mem_unique hmem (fun _ hv' => mem_map_fst_unique hU hv' hmem)

theorem no_overlap_keys {α : Type} {m : Store α} (hN : pairwise_no_overlap m) :
    ∀ x ∈ m, ∀ y ∈ m, x.1 ≠ y.1 → interval_overlap x.1 y.1 = false := by
  intro x hx y hy hne
  have hsym : Symmetric (fun a b : Interval × α => interval_overlap a.1 b.1 = false) := by
    intro a b h
    rw [interval_overlap_comm]
    exact h
  exact hN.forall hsym hx hy (fun h => hne (by rw [h]))

theorem uniq_of_inv {α : Type} {m : Store α} (hV : valid_keys m)
    (hN : pairwise_no_overlap m) : (m.map Prod.fst).Nodup := by
  rw [List.Nodup, List.pairwise_map]
  refine hN.imp_of_mem ?_
  intro a b ha hb hR heq
  have hva := hV a ha
  have hvb := hV b hb
  have h1 : a.1.1 = b.1.1 := congrArg Prod.fst heq
  have h2 : a.1.2 = b.1.2 := congrArg Prod.snd heq
  rw [interval_overlap_false_iff] at hR
  exact hR ⟨by omega, by omega⟩

theorem distinct_keys_ne_ends {α : Type} {m : Store α} (hV : valid_keys m)
    (hN : pairwise_no_overlap m) {a b : Interval}
    (ha : a ∈ m.map Prod.fst) (hb : b ∈ m.map Prod.fst) (hne : a ≠ b) :
    a.1 ≠ b.1 ∧ a.2 ≠ b.2 := by
  obtain ⟨xa, hxa, hxa1⟩ := List.mem_map.mp ha
  obtain ⟨xb, hxb, hxb1⟩ := List.mem_map.mp hb
  have hva : a.1 < a.2 := by
    rw [← hxa1]
    exact hV xa hxa
  have hvb : b.1 < b.2 := by
    rw [← hxb1]
    exact hV xb hxb
  have hxyne : xa.1 ≠ xb.1 := by
    rw [hxa1, hxb1]
    exact hne
  have hno := no_overlap_keys hN xa hxa xb hxb hxyne
  rw [hxa1, hxb1, interval_overlap_false_iff] at hno
  constructor
  · intro h
    exact hno ⟨by omega, by omega⟩
  · intro h
    exact hno ⟨by omega, by omega⟩

theorem overlap_left_rem (s e a : Int) :
    interval_overlap (a, s) (s, e) = false := by
  simp [interval_overlap]

theorem overlap_right_rem (s e b : Int) :
    interval_overlap (e, b) (s, e) = false := by
  simp [interval_overlap]

theorem overlap_false_mono {S1 S2 a b : Interval}
    (ha : S1.1 ≤ a.1 ∧ a.2 ≤ S1.2) (hb : S2.1 ≤ b.1 ∧ b.2 ≤ S2.2)
    (h : interval_overlap S1 S2 = false) : interval_overlap a b = false := by
  rw [interval_overlap_false_iff] at h ⊢
  omega

theorem mem_overlap_iff {α : Type} {m : Store α} {i k : Interval} :
    k ∈ overlap m i ↔ k ∈ m.map Prod.fst ∧ interval_overlap k i = true := by
  simp [overlap, List.mem_filter]

theorem entry_ne_rem_key {α : Type} {m : Store α} (hV : valid_keys m)
    (hN : pairwise_no_overlap m) {k : Interval} (hk : k ∈ m.map Prod.fst)
    {s e : Int} (hov : interval_overlap k (s, e) = true) :
    ∀ x ∈ m, x.1 ≠ (k.1, s) ∧ x.1 ≠ (e, k.2) := by
  obtain ⟨y, hy, hyk⟩ := List.mem_map.mp hk
  have hvk : k.1 < k.2 := by have := hV y hy; rwa [hyk] at this
  rw [interval_overlap_true_iff] at hov
  intro x hx
  constructor
  · intro hx1
    have hvx : k.1 < s := by
      have := hV x hx
      rw [hx1] at this
      simpa using this
    by_cases hxy : x.1 = y.1
    · rw [hyk] at hxy
      rw [hx1] at hxy
      have : s = k.2 := congrArg Prod.snd hxy
      omega
    · have hno := no_overlap_keys hN x hx y hy hxy
      rw [hx1, hyk, interval_overlap_false_iff] at hno
      exact hno ⟨hvk, hvx⟩
  · intro hx1
    have hvx : e < k.2 := by
      have := hV x hx
      rw [hx1] at this
      simpa using this
    by_cases hxy : x.1 = y.1
    · rw [hyk] at hxy
      rw [hx1] at hxy
      have : e = k.1 := congrArg Prod.fst hxy
      omega
    · have hno := no_overlap_keys hN x hx y hy hxy
      rw [hx1, hyk, interval_overlap_false_iff] at hno
      exact hno ⟨hvx, hvk⟩

/-! ### The truncation loop of `apply_color`, characterised -/

theorem truncate_step_eq {α : Type} {mc : Store α} {k0 : Interval} {v0 : α}
    {s e : Int} (hget : dictGet mc k0 = some v0)
    (hfresh : ∀ x ∈ mc, x.1 ≠ (k0.1, s) ∧ x.1 ≠ (e, k0.2))
    (h1 : k0.1 < e) (h2 : s < k0.2) :
    truncate_step s e mc k0 =
      mc.filter (fun x => decide (x.1 ≠ k0)) ++ rems s e k0 v0 := by
  have hfa : mc.filter (fun x => decide (x.1 ≠ (k0.1, s))) = mc :=
    List.filter_eq_self.mpr (fun x hx => by simpa using (hfresh x hx).1)
  have hfb : mc.filter (fun x => decide (x.1 ≠ (e, k0.2))) = mc :=
    List.filter_eq_self.mpr (fun x hx => by simpa using (hfresh x hx).2)
  have hne_ak : ((k0.1, s) : Interval) ≠ k0 := by
    intro h
    have := congrArg Prod.snd h
    simp only at this
    omega
  have hne_bk : ((e, k0.2) : Interval) ≠ k0 := by
    intro h
    have := congrArg Prod.fst h
    simp only at this
    omega
  have hne_ab : ((k0.1, s) : Interval) ≠ ((e, k0.2) : Interval) := by
    intro h
    have := congrArg Prod.fst h
    simp only at this
    omega
  simp only [truncate_step, hget]
  by_cases g1 : k0.1 < s <;> by_cases g2 : e < k0.2 <;>
    simp only [g1, g2, if_true, if_false, ite_true, ite_false, dictSet,
      dictDel, rems, hfa, List.filter_append, hfb, List.append_nil] <;>
    simp [hne_ak, hne_bk, hne_ab, hfa, hfb, List.filter_append,
      List.append_assoc]

theorem foldl_truncate_eq {α : Type} {m : Store α} {s e : Int}
    (hV : valid_keys m) (hN : pairwise_no_overlap m) :
    ∀ (R : List Interval) (mc : Store α),
      (∀ k ∈ R, ∀ v, ((k, v) ∈ mc ↔ (k, v) ∈ m)) →
      (∀ k ∈ R, ∀ x ∈ mc, x.1 ≠ (k.1, s) ∧ x.1 ≠ (e, k.2)) →
      (∀ k ∈ R, interval_overlap k (s, e) = true ∧ k ∈ m.map Prod.fst) →
      R.Nodup →
      R.foldl (truncate_step s e) mc =
        mc.filter (fun x => decide (x.1 ∉ R)) ++ (R.map (remsOf m s e)).flatten := by
  intro R
  induction R with
  | nil =>
    intro mc _ _ _ _
    simp
  | cons k0 R' ih =>
    intro mc hP1 hP2 hP3 hP4
    have hk0R : k0 ∈ k0 :: R' := List.mem_cons_self k0 R'
    obtain ⟨hov0, hk0m⟩ := hP3 k0 hk0R
    obtain ⟨y, hy, hyk⟩ := List.mem_map.mp hk0m
    have hUm : (m.map Prod.fst).Nodup := uniq_of_inv hV hN
    have hymem : (k0, y.2) ∈ m := by
      have hyeq : y = (k0, y.2) := by
        cases y
        simp_all
      rwa [hyeq] at hy
    have hmemmc : (k0, y.2) ∈ mc := (hP1 k0 hk0R y.2).mpr hymem
    have huniqmc : ∀ v', (k0, v') ∈ mc → v' = y.2 := fun v' hv' =>
      mem_map_fst_unique hUm ((hP1 k0 hk0R v').mp hv') hymem
    have hgetmc : dictGet mc k0 = some y.2 :=
      dictGet_eq_some_of_mem_unique hmemmc huniqmc
    have hgetm : dictGet m k0 = some y.2 :=
      dictGet_eq_some_of_mem_nodup hUm hymem
    have hov0' := interval_overlap_true_iff.mp hov0
    have hov1 : k0.1 < e := by simpa using hov0'.1
    have hov2 : s < k0.2 := by simpa using hov0'.2
    have hstep := truncate_step_eq hgetmc (hP2 k0 hk0R) hov1 hov2
    rw [List.foldl_cons, hstep]
    have hrem_keys : ∀ x ∈ rems s e k0 y.2, x.1 = (k0.1, s) ∨ x.1 = (e, k0.2) := by
      intro x hx
      rcases mem_rems_iff.mp hx with ⟨_, rfl⟩ | ⟨_, rfl⟩
      · left
        rfl
      · right
        rfl
    have hrem_ov : ∀ x ∈ rems s e k0 y.2, interval_overlap x.1 (s, e) = false := by
      intro x hx
      rcases hrem_keys x hx with h | h <;> rw [h]
      · exact overlap_left_rem s e k0.1
      · exact overlap_right_rem s e k0.2
    have hP1' : ∀ k ∈ R', ∀ v,
        ((k, v) ∈ mc.filter (fun x => decide (x.1 ≠ k0)) ++ rems s e k0 y.2 ↔
          (k, v) ∈ m) := by
      intro k hk v
      have hkcons := List.mem_cons_of_mem k0 hk
      have hkne : k ≠ k0 := by
        intro h
        rw [h] at hk
        exact (List.nodup_cons.mp hP4).1 hk
      constructor
      · intro hmem
        rcases List.mem_append.mp hmem with h | h
        · exact (hP1 k hkcons v).mp (List.mem_filter.mp h).1
        · have hovk := (hP3 k hkcons).1
          have hfalse : interval_overlap k (s, e) = false := hrem_ov (k, v) h
          rw [hfalse] at hovk
          cases hovk
      · intro hmem
        exact List.mem_append.mpr (Or.inl (List.mem_filter.mpr
          ⟨(hP1 k hkcons v).mpr hmem, by simpa using hkne⟩))
    have hP2' : ∀ k ∈ R',
        ∀ x ∈ mc.filter (fun x => decide (x.1 ≠ k0)) ++ rems s e k0 y.2,
          x.1 ≠ (k.1, s) ∧ x.1 ≠ (e, k.2) := by
      intro k hk x hx
      have hkcons := List.mem_cons_of_mem k0 hk
      rcases List.mem_append.mp hx with h | h
      · exact hP2 k hkcons x (List.mem_filter.mp h).1
      · have hkne : k0 ≠ k := by
          intro hkk
          rw [← hkk] at hk
          exact (List.nodup_cons.mp hP4).1 hk
        obtain ⟨hovk, hkm⟩ := hP3 k hkcons
        have hovk' := interval_overlap_true_iff.mp hovk
        have hovk1 : k.1 < e := by simpa using hovk'.1
        have hne_keys := distinct_keys_ne_ends hV hN hk0m hkm hkne
        rcases hrem_keys x h with hx1 | hx1 <;> rw [hx1]
        · constructor
          · intro hcontra
            have h' := congrArg Prod.fst hcontra
            simp only at h'
            exact hne_keys.1 h'
          · intro hcontra
            have h' := congrArg Prod.fst hcontra
            simp only at h'
            omega
        · constructor
          · intro hcontra
            have h' := congrArg Prod.fst hcontra
            simp only at h'
            omega
          · intro hcontra
            have h' := congrArg Prod.snd hcontra
            simp only at h'
            exact hne_keys.2 h'
    have hP3' : ∀ k ∈ R', interval_overlap k (s, e) = true ∧ k ∈ m.map Prod.fst :=
      fun k hk => hP3 k (List.mem_cons_of_mem k0 hk)
    have hP4' : R'.Nodup := (List.nodup_cons.mp hP4).2
    rw [ih _ hP1' hP2' hP3' hP4']
    have hBfilter : (rems s e k0 y.2).filter (fun x => decide (x.1 ∉ R')) =
        rems s e k0 y.2 := by
      refine List.filter_eq_self.mpr (fun x hx => ?_)
      have hovx := hrem_ov x hx
      simp only [decide_eq_true_eq]
      intro hmem
      have hovk := (hP3 x.1 (List.mem_cons_of_mem k0 hmem)).1
      rw [hovx] at hovk
      cases hovk
    rw [List.filter_append, hBfilter, List.filter_filter]
    have hpred : mc.filter (fun x => decide (x.1 ∉ R') && decide (x.1 ≠ k0)) =
        mc.filter (fun x => decide (x.1 ∉ k0 :: R')) := by
      refine List.filter_congr (fun x _ => ?_)
      by_cases h1 : x.1 = k0 <;> by_cases h2 : x.1 ∈ R' <;>
        simp [h1, h2, List.mem_cons]
    rw [hpred, List.map_cons, List.flatten_cons]
    have hremsOf : remsOf m s e k0 = rems s e k0 y.2 := by
      simp [remsOf, hgetm]
    rw [hremsOf, List.append_assoc]

theorem truncate_overlaps_eq {α : Type} {m : Store α} {s e : Int}
    (hV : valid_keys m) (hN : pairwise_no_overlap m) :
    truncate_overlaps m s e =
      m.filter (fun x => !interval_overlap x.1 (s, e)) ++
        ((overlap m (s, e)).map (remsOf m s e)).flatten := by
  have hpre1 : ∀ k ∈ overlap m (s, e), ∀ v, ((k, v) ∈ m ↔ (k, v) ∈ m) :=
    fun _ _ _ => Iff.rfl
  have hpre3 : ∀ k ∈ overlap m (s, e),
      interval_overlap k (s, e) = true ∧ k ∈ m.map Prod.fst := by
    intro k hk
    have := mem_overlap_iff.mp hk
    exact ⟨this.2, this.1⟩
  have hpre2 : ∀ k ∈ overlap m (s, e), ∀ x ∈ m, x.1 ≠ (k.1, s) ∧ x.1 ≠ (e, k.2) := by
    intro k hk
    obtain ⟨hkm, hkov⟩ := mem_overlap_iff.mp hk
    exact entry_ne_rem_key hV hN hkm hkov
  have hpre4 : (overlap m (s, e)).Nodup :=
    ((uniq_of_inv hV hN).filter _)
  rw [truncate_overlaps,
    foldl_truncate_eq hV hN (overlap m (s, e)) m hpre1 hpre2 hpre3 hpre4]
  congr 1
  refine List.filter_congr (fun x hx => ?_)
  have : x.1 ∈ overlap m (s, e) ↔ interval_overlap x.1 (s, e) = true := by
    rw [mem_overlap_iff]
    simp only [and_iff_right_iff_imp]
    intro
    exact List.mem_map.mpr ⟨x, hx, rfl⟩
  by_cases h : interval_overlap x.1 (s, e) = true
  · simp [this, h]
  · simp only [Bool.not_eq_true] at h
    simp [this, h]

theorem mem_flatten_rems_iff {α : Type} {m : Store α} {s e : Int}
    (hV : valid_keys m) (hN : pairwise_no_overlap m) {x : Interval × α} :
    x ∈ ((overlap m (s, e)).map (remsOf m s e)).flatten ↔
      ∃ y ∈ m, interval_overlap y.1 (s, e) = true ∧ x ∈ rems s e y.1 y.2 := by
  rw [List.mem_flatten]
  constructor
  · rintro ⟨l, hl, hxl⟩
    rw [List.mem_map] at hl
    obtain ⟨k, hk, rfl⟩ := hl
    obtain ⟨hkm, hkov⟩ := mem_overlap_iff.mp hk
    obtain ⟨y, hy, hyk⟩ := List.mem_map.mp hkm
    have hymem : (k, y.2) ∈ m := by
      have hyeq : y = (k, y.2) := by
        cases y
        simp_all
      rwa [hyeq] at hy
    have hgetm : dictGet m k = some y.2 :=
      dictGet_eq_some_of_mem_nodup (uniq_of_inv hV hN) hymem
    simp only [remsOf, hgetm] at hxl
    refine ⟨y, hy, ?_, ?_⟩
    · rw [hyk]
      exact hkov
    · rw [hyk]
      exact hxl
  · rintro ⟨y, hy, hov, hxr⟩
    refine ⟨remsOf m s e y.1, List.mem_map.mpr ⟨y.1, ?_, rfl⟩, ?_⟩
    · exact mem_overlap_iff.mpr ⟨List.mem_map.mpr ⟨y, hy, rfl⟩, hov⟩
    · have hgetm : dictGet m y.1 = some y.2 :=
        dictGet_eq_some_of_mem_nodup (uniq_of_inv hV hN) hy
      simp only [remsOf, hgetm]
      exact hxr

theorem mem_truncate_iff {α : Type} {m : Store α} {s e : Int}
    (hV : valid_keys m) (hN : pairwise_no_overlap m) {x : Interval × α} :
    x ∈ truncate_overlaps m s e ↔
      (x ∈ m ∧ interval_overlap x.1 (s, e) = false) ∨
      (∃ y ∈ m, interval_overlap y.1 (s, e) = true ∧ x ∈ rems s e y.1 y.2) := by
  rw [truncate_overlaps_eq hV hN, List.mem_append, mem_flatten_rems_iff hV hN]
  refine or_congr ?_ Iff.rfl
  rw [List.mem_filter]
  simp

theorem truncate_valid {α : Type} {m : Store α} {s e : Int}
    (hV : valid_keys m) (hN : pairwise_no_overlap m) :
    valid_keys (truncate_overlaps m s e) := by
  intro x hx
  rcases (mem_truncate_iff hV hN).mp hx with ⟨hxm, _⟩ | ⟨y, hy, hov, hxr⟩
  · exact hV x hxm
  · rcases mem_rems_iff.mp hxr with ⟨hg, rfl⟩ | ⟨hg, rfl⟩ <;> simpa using hg

theorem rem_key_subspan {α : Type} {s e : Int} {k : Interval} {v : α}
    {x : Interval × α} (hx : x ∈ rems s e k v)
    (hov : interval_overlap k (s, e) = true) :
    k.1 ≤ x.1.1 ∧ x.1.2 ≤ k.2 := by
  rw [interval_overlap_true_iff] at hov
  have h1 : k.1 < e := by simpa using hov.1
  have h2 : s < k.2 := by simpa using hov.2
  rcases mem_rems_iff.mp hx with ⟨hg, rfl⟩ | ⟨hg, rfl⟩ <;>
    constructor <;> simp <;> omega

theorem truncate_pairwise {α : Type} {m : Store α} {s e : Int}
    (hV : valid_keys m) (hN : pairwise_no_overlap m) (hse : s < e) :
    pairwise_no_overlap (truncate_overlaps m s e) := by
  rw [pairwise_no_overlap, truncate_overlaps_eq hV hN, List.pairwise_append]
  refine ⟨hN.filter _, ?_, ?_⟩
  · rw [List.pairwise_flatten]
    constructor
    · intro l hl
      rw [List.mem_map] at hl
      obtain ⟨k, hk, rfl⟩ := hl
      rcases hdg : dictGet m k with _ | v
      · simp [remsOf, hdg]
      · simp only [remsOf, hdg]
        by_cases g1 : k.1 < s <;> by_cases g2 : e < k.2 <;>
          simp [rems, g1, g2, interval_overlap_false_iff]
        omega
    · have hov_pairs : (overlap m (s, e)).Pairwise
          (fun k1 k2 => interval_overlap k1 k2 = false) := by
        unfold overlap
        have hN' : m.Pairwise (fun x y => interval_overlap x.1 y.1 = false) := hN
        exact (List.pairwise_map.mpr hN').filter _
      rw [List.pairwise_map]
      refine hov_pairs.imp_of_mem ?_
      intro k1 k2 hk1 hk2 hov12 a ha b hb
      have hova := (mem_overlap_iff.mp hk1).2
      have hovb := (mem_overlap_iff.mp hk2).2
      have hsa : k1.1 ≤ a.1.1 ∧ a.1.2 ≤ k1.2 := by
        rcases hdg : dictGet m k1 with _ | v
        · simp [remsOf, hdg] at ha
        · simp only [remsOf, hdg] at ha
          exact rem_key_subspan ha hova
      have hsb : k2.1 ≤ b.1.1 ∧ b.1.2 ≤ k2.2 := by
        rcases hdg : dictGet m k2 with _ | v
        · simp [remsOf, hdg] at hb
        · simp only [remsOf, hdg] at hb
          exact rem_key_subspan hb hovb
      exact overlap_false_mono hsa hsb hov12
  · intro a ha b hb
    obtain ⟨ham, hanov⟩ := List.mem_filter.mp ha
    have hanov' : interval_overlap a.1 (s, e) = false := by simpa using hanov
    obtain ⟨y, hy, hyov, hbr⟩ := (mem_flatten_rems_iff hV hN).mp hb
    have hane : a.1 ≠ y.1 := by
      intro h
      rw [h, hyov] at hanov'
      cases hanov'
    have hnoov := no_overlap_keys hN a ham y hy hane
    have hsb := rem_key_subspan hbr hyov
    exact overlap_false_mono ⟨le_refl _, le_refl _⟩ hsb hnoov

theorem apply_color_eq {α : Type} {m : Store α} {s e : Int} {c : α}
    (hV : valid_keys m) (hN : pairwise_no_overlap m) (hse : s < e) :
    apply_color s e c m = some (truncate_overlaps m s e ++ [((s, e), c)]) := by
  rw [apply_color, setItem, if_pos (by exact hse)]
  congr 1
  rw [dictSet]
  have hfs : (truncate_overlaps m s e).filter
      (fun x => decide (x.1 ≠ ((s, e) : Interval))) = truncate_overlaps m s e := by
    refine List.filter_eq_self.mpr (fun x hx => ?_)
    simp only [decide_eq_true_eq]
    intro hkey
    rcases (mem_truncate_iff hV hN).mp hx with ⟨_, hov⟩ | ⟨y, hy, hov, hxr⟩
    · rw [hkey, interval_overlap_false_iff] at hov
      exact hov ⟨hse, hse⟩
    · rcases mem_rems_iff.mp hxr with ⟨hg, rfl⟩ | ⟨hg, rfl⟩
      · have h2 := congrArg Prod.snd hkey
        simp only at h2
        omega
      · have h2 := congrArg Prod.snd hkey
        simp only at h2
        omega
  rw [hfs]

theorem apply_color_none {α : Type} {m : Store α} {s e : Int} {c : α}
    (hes : e ≤ s) : apply_color s e c m = none := by
  rw [apply_color, setItem, if_neg]
  simp only
  omega

/-- The full specification of a successful `apply_color` call on a store
satisfying the invariants: it succeeds, preserves the invariants, colors
the inside of the new interval with exactly the new payload, and leaves
the coloring of every outside position untouched. -/
theorem apply_color_sound {α : Type} [DecidableEq α] {m : Store α}
    {s e : Int} {c : α} (hI : store_inv m) (hse : s < e) :
    ∃ m', apply_color s e c m = some m' ∧ store_inv m' ∧
      (∀ p c', s ≤ p → p < e → (has_color m' p c' = true ↔ c' = c)) ∧
      (∀ p c', p < s ∨ e ≤ p → has_color m' p c' = has_color m p c') := by
  obtain ⟨hV, hN⟩ := hI
  refine ⟨_, apply_color_eq hV hN hse, ⟨?_, ?_⟩, ?_, ?_⟩
  · intro x hx
    rcases List.mem_append.mp hx with h | h
    · exact truncate_valid hV hN x h
    · have hxe : x = ((s, e), c) := by simpa using h
      rw [hxe]
      exact hse
  · rw [pairwise_no_overlap, List.pairwise_append]
    refine ⟨truncate_pairwise hV hN hse, List.pairwise_singleton _ _, ?_⟩
    intro a ha b hb
    have hbe : b = ((s, e), c) := by simpa using hb
    rw [hbe]
    rcases (mem_truncate_iff hV hN).mp ha with ⟨_, hov⟩ | ⟨y, _, hov, har⟩
    · exact hov
    · rcases mem_rems_iff.mp har with ⟨_, rfl⟩ | ⟨_, rfl⟩
      · exact overlap_left_rem s e y.1.1
      · exact overlap_right_rem s e y.1.2
  · intro p c' hp1 hp2
    rw [has_color_true_iff]
    constructor
    · rintro ⟨x, hx, ⟨hc1, hc2⟩, hval⟩
      rcases List.mem_append.mp hx with h | h
      · exfalso
        rcases (mem_truncate_iff hV hN).mp h with ⟨_, hov⟩ | ⟨y, _, hov, hxr⟩
        · rw [interval_overlap_false_iff] at hov
          exact hov ⟨by omega, by omega⟩
        · rcases mem_rems_iff.mp hxr with ⟨hg, rfl⟩ | ⟨hg, rfl⟩ <;>
            simp only at hc1 hc2 <;> omega
      · have hxe : x = ((s, e), c) := by simpa using h
        rw [hxe] at hval
        exact hval.symm
    · intro h
      exact ⟨((s, e), c), List.mem_append.mpr (Or.inr (by simp)),
        ⟨hp1, hp2⟩, h.symm⟩
  · intro p c' hp
    apply bool_eq_of_true_iff
    rw [has_color_true_iff, has_color_true_iff]
    constructor
    · rintro ⟨x, hx, hcov, hval⟩
      rcases List.mem_append.mp hx with h | h
      · rcases (mem_truncate_iff hV hN).mp h with ⟨hxm, _⟩ | ⟨y, hy, hov, hxr⟩
        · exact ⟨x, hxm, hcov, hval⟩
        · rw [interval_overlap_true_iff] at hov
          have hov1 : y.1.1 < e := by simpa using hov.1
          have hov2 : s < y.1.2 := by simpa using hov.2
          refine ⟨y, hy, ?_, ?_⟩
          · rcases mem_rems_iff.mp hxr with ⟨hg, rfl⟩ | ⟨hg, rfl⟩ <;>
              simp only at hcov <;> exact ⟨by omega, by omega⟩
          · rcases mem_rems_iff.mp hxr with ⟨_, rfl⟩ | ⟨_, rfl⟩ <;> exact hval
      · exfalso
        have hxe : x = ((s, e), c) := by simpa using h
        rw [hxe] at hcov
        simp only at hcov
        omega
    · rintro ⟨y, hy, hcov, hval⟩
      by_cases hov : interval_overlap y.1 (s, e) = true
      · have hov' := interval_overlap_true_iff.mp hov
        have hov1 : y.1.1 < e := by simpa using hov'.1
        have hov2 : s < y.1.2 := by simpa using hov'.2
        rcases hp with hp | hp
        · refine ⟨((y.1.1, s), y.2), List.mem_append.mpr (Or.inl ?_),
            ⟨by simpa using hcov.1, by simpa⟩, hval⟩
          exact (mem_truncate_iff hV hN).mpr (Or.inr ⟨y, hy, hov,
            mem_rems_iff.mpr (Or.inl ⟨by omega, rfl⟩)⟩)
        · refine ⟨((e, y.1.2), y.2), List.mem_append.mpr (Or.inl ?_),
            ⟨by simpa, by simpa using hcov.2⟩, hval⟩
          exact (mem_truncate_iff hV hN).mpr (Or.inr ⟨y, hy, hov,
            mem_rems_iff.mpr (Or.inr ⟨by omega, rfl⟩)⟩)
      · rw [Bool.not_eq_true] at hov
        exact ⟨y, List.mem_append.mpr (Or.inl
          ((mem_truncate_iff hV hN).mpr (Or.inl ⟨hy, hov⟩))), hcov, hval⟩

/-- A failed `apply_color` call (degenerate interval, `start >= end`)
leaves the per-position coloring of the store unchanged: the truncation
performed before the assertion failure only splits intervals into
equal-colored fragments that jointly cover the same positions. -/
theorem truncate_degenerate {α : Type} [DecidableEq α] {m : Store α}
    {s e : Int} (hV : valid_keys m) (hN : pairwise_no_overlap m)
    (hes : e ≤ s) :
    ∀ p c', has_color (truncate_overlaps m s e) p c' = has_color m p c' := by
  intro p c'
  apply bool_eq_of_true_iff
  rw [has_color_true_iff, has_color_true_iff]
  constructor
  · rintro ⟨x, hx, hcov, hval⟩
    rcases (mem_truncate_iff hV hN).mp hx with ⟨hxm, _⟩ | ⟨y, hy, hov, hxr⟩
    · exact ⟨x, hxm, hcov, hval⟩
    · rw [interval_overlap_true_iff] at hov
      have hov1 : y.1.1 < e := by simpa using hov.1
      have hov2 : s < y.1.2 := by simpa using hov.2
      refine ⟨y, hy, ?_, ?_⟩
      · rcases mem_rems_iff.mp hxr with ⟨hg, rfl⟩ | ⟨hg, rfl⟩ <;>
          simp only at hcov <;> exact ⟨by omega, by omega⟩
      · rcases mem_rems_iff.mp hxr with ⟨_, rfl⟩ | ⟨_, rfl⟩ <;> exact hval
  · rintro ⟨y, hy, hcov, hval⟩
    by_cases hov : interval_overlap y.1 (s, e) = true
    · have hov' := interval_overlap_true_iff.mp hov
      have hov1 : y.1.1 < e := by simpa using hov'.1
      have hov2 : s < y.1.2 := by simpa using hov'.2
      by_cases hps : p < s
      · refine ⟨((y.1.1, s), y.2), ?_, ⟨by simpa using hcov.1, by simpa⟩, hval⟩
        exact (mem_truncate_iff hV hN).mpr (Or.inr ⟨y, hy, hov,
          mem_rems_iff.mpr (Or.inl ⟨by omega, rfl⟩)⟩)
      · refine ⟨((e, y.1.2), y.2), ?_,
          ⟨by simp only; omega, by simpa using hcov.2⟩, hval⟩
        exact (mem_truncate_iff hV hN).mpr (Or.inr ⟨y, hy, hov,
          mem_rems_iff.mpr (Or.inr ⟨by omega, rfl⟩)⟩)
    · rw [Bool.not_eq_true] at hov
      exact ⟨y, (mem_truncate_iff hV hN).mpr (Or.inl ⟨hy, hov⟩), hcov, hval⟩

/-! ### Sequences of insertions -/

theorem store_inv_nil {α : Type} : store_inv ([] : Store α) :=
  ⟨fun x hx => absurd hx (List.not_mem_nil x), List.Pairwise.nil⟩

theorem store_no_overlap_pairs {α : Type} {m : Store α} (hI : store_inv m) :
    ∀ I1 ∈ m.map Prod.fst, ∀ I2 ∈ m.map Prod.fst, I1 ≠ I2 →
      ¬(I1.1 < I2.2 ∧ I2.1 < I1.2) := by
  intro I1 h1 I2 h2 hne
  obtain ⟨x1, hx1, hk1⟩ := List.mem_map.mp h1
  obtain ⟨x2, hx2, hk2⟩ := List.mem_map.mp h2
  have hxne : x1.1 ≠ x2.1 := by
    rw [hk1, hk2]
    exact hne
  have := no_overlap_keys hI.2 x1 hx1 x2 hx2 hxne
  rw [hk1, hk2, interval_overlap_false_iff] at this
  exact this

theorem apply_list_append {α : Type} (l1 l2 : List (Interval × α))
    (st : Store α) :
    apply_list (l1 ++ l2) st =
      match apply_list l1 st with
      | none => none
      | some st2 => apply_list l2 st2 := by
  induction l1 generalizing st with
  | nil => simp [apply_list]
  | cons q rest ih =>
    simp only [List.cons_append, apply_list]
    cases apply_color q.1.1 q.1.2 q.2 st with
    | none => rfl
    | some st2 => exact ih st2

theorem run_matches_eq_apply_list {α : Type} (info : PatternInfo α)
    (mrs : List MatchRes) (st : Store α) :
    run_matches info mrs st =
      apply_list (mrs.map (match_queue info)).flatten st := by
  induction mrs generalizing st with
  | nil => simp [run_matches, apply_list]
  | cons mr rest ih =>
    simp only [run_matches, List.map_cons, List.flatten_cons, apply_list_append]
    cases h : apply_list (match_queue info mr) st with
    | none => rfl
    | some st2 => exact ih st2

/-- `Matcher.match` applies, for each rule, exactly the queued
insertions of that rule, in queue order: matches in `finditer` order
and, within a match, intervals in the order they were paired. -/
theorem run_pattern_eq_queue {α : Type} (st : Store α) (pt : Pattern α)
    (text : Text) :
    run_pattern st pt text = apply_list (rule_insertions pt text) st := by
  rw [run_pattern, rule_insertions, run_matches_eq_apply_list]

theorem apply_list_sound {α : Type} [DecidableEq α] :
    ∀ (qs : List (Interval × α)) (m : Store α), store_inv m →
      (∀ q ∈ qs, q.1.1 < q.1.2) →
      ∃ m', apply_list qs m = some m' ∧ store_inv m' ∧
        (∀ p c', (∀ q ∈ qs, covers q.1 p = false) →
          has_color m' p c' = has_color m p c') ∧
        (∀ p c0, (∀ q ∈ qs, q.2 = c0) → (∃ q ∈ qs, covers q.1 p = true) →
          ∀ c', (has_color m' p c' = true ↔ c' = c0)) := by
  intro qs
  induction qs with
  | nil =>
    intro m hI _
    exact ⟨m, rfl, hI, fun _ _ _ => rfl, fun p c0 _ h => absurd h (by simp)⟩
  | cons q rest ih =>
    intro m hI hval
    have hq : q.1.1 < q.1.2 := hval q (List.mem_cons_self q rest)
    obtain ⟨m1, hm1, hI1, hin1, hout1⟩ :=
      @apply_color_sound _ _ m q.1.1 q.1.2 q.2 hI hq
    obtain ⟨m', hm', hI', hunt, hwin⟩ :=
      ih m1 hI1 (fun q' hq' => hval q' (List.mem_cons_of_mem _ hq'))
    refine ⟨m', ?_, hI', ?_, ?_⟩
    · simp only [apply_list, hm1]
      exact hm'
    · intro p c' hnc
      rw [hunt p c' (fun q' h => hnc q' (List.mem_cons_of_mem _ h))]
      have hqnc : covers q.1 p = false := hnc q (List.mem_cons_self q rest)
      rw [← Bool.not_eq_true, covers_true_iff] at hqnc
      exact hout1 p c' (by omega)
    · intro p c0 hall hex c'
      by_cases hrest : ∃ q' ∈ rest, covers q'.1 p = true
      · exact hwin p c0 (fun q' h => hall q' (List.mem_cons_of_mem _ h)) hrest c'
      · obtain ⟨qx, hqx, hqcov⟩ := hex
        have hqx1 : qx = q := by
          rcases List.mem_cons.mp hqx with h | h
          · exact h
          · exact absurd ⟨qx, h, hqcov⟩ hrest
        rw [hqx1] at hqcov
        rw [covers_true_iff] at hqcov
        have hnone : ∀ q' ∈ rest, covers q'.1 p = false := by
          intro q' h
          rw [← Bool.not_eq_true]
          intro hc
          exact hrest ⟨q', h, hc⟩
        rw [hunt p c' hnone]
        have := hin1 p c' hqcov.1 hqcov.2
        rw [this]
        rw [hall q (List.mem_cons_self q rest)]

theorem flatten_map_singleton {β γ : Type} (g : β → γ) (l : List β) :
    (l.map (fun x => [g x])).flatten = l.map g := by
  induction l <;> simp_all

theorem whole_rule_insertions {α : Type} (f : Text → List MatchRes) (c : α)
    (text : Text) :
    rule_insertions (whole_rule f c) text =
      (f text).map (fun mr => (mr.span, c)) := by
  rw [rule_insertions]
  have hq : ∀ mr : MatchRes,
      match_queue (PatternInfo.whole c) mr = [(mr.span, c)] := fun _ => rfl
  rw [show (whole_rule f c).regex = f from rfl,
    show (whole_rule f c).info = PatternInfo.whole c from rfl]
  rw [List.map_congr_left (fun mr _ => hq mr)]
  exact flatten_map_singleton _ _

/-- A two-rule matcher, rule B added after rule A: wherever B's matches
cover a position, that position ends up with B's color, and only B's. -/
theorem two_rule_match {α : Type} [DecidableEq α] (nA nB : String)
    (fA fB : Text → List MatchRes) (ca cb : α) (text : Text) (p : Int)
    (hA : ∀ mr ∈ fA text, mr.span.1 < mr.span.2)
    (hB : ∀ mr ∈ fB text, mr.span.1 < mr.span.2)
    (hpB : ∃ mr ∈ fB text, covers mr.span p = true) :
    ∃ st, matcher_match [(nA, whole_rule fA ca), (nB, whole_rule fB cb)] text
        = some st ∧ ∀ c', (has_color st p c' = true ↔ c' = cb) := by
  have hvalA : ∀ q ∈ rule_insertions (whole_rule fA ca) text, q.1.1 < q.1.2 := by
    rw [whole_rule_insertions]
    intro q hq
    obtain ⟨mr, hmr, rfl⟩ := List.mem_map.mp hq
    exact hA mr hmr
  have hvalB : ∀ q ∈ rule_insertions (whole_rule fB cb) text, q.1.1 < q.1.2 := by
    rw [whole_rule_insertions]
    intro q hq
    obtain ⟨mr, hmr, rfl⟩ := List.mem_map.mp hq
    exact hB mr hmr
  obtain ⟨stA, hstA, hIA, _, _⟩ := apply_list_sound _ [] store_inv_nil hvalA
  obtain ⟨stB, hstB, _, _, hwin⟩ := apply_list_sound _ stA hIA hvalB
  refine ⟨stB, ?_, ?_⟩
  · simp only [matcher_match, run_rules, run_pattern_eq_queue, hstA, hstB]
  · intro c'
    refine hwin p cb ?_ ?_ c'
    · rw [whole_rule_insertions]
      intro q hq
      obtain ⟨mr, _, rfl⟩ := List.mem_map.mp hq
      rfl
    · rw [whole_rule_insertions]
      obtain ⟨mr, hmr, hcov⟩ := hpB
      exact ⟨(mr.span, cb), List.mem_map.mpr ⟨mr, hmr, rfl⟩, hcov⟩

/-- For a whole-match rule whose `finditer` output is in the standard
non-overlapping left-to-right order, the insertion queue is strictly
ascending by interval start. -/
theorem whole_rule_queue_sorted {α : Type} (f : Text → List MatchRes) (c : α)
    (text : Text) (hval : ∀ mr ∈ f text, mr.span.1 < mr.span.2)
    (hord : (f text).Pairwise (fun a b => a.span.2 ≤ b.span.1)) :
    (rule_insertions (whole_rule f c) text).Pairwise
      (fun q1 q2 => q1.1.1 < q2.1.1) := by
  rw [whole_rule_insertions, List.pairwise_map]
  refine hord.imp_of_mem ?_
  intro a b ha _ h
  have := hval a ha
  show a.span.1 < b.span.1
  omega

/-! ### The payload pairing of `Matcher.match` -/

theorem zip_fill_fst {α : Type} :
    ∀ (xs : List Interval) (ys : List α) (fill : α) (i : Nat),
      ((zip_fill xs ys fill)[i]?).map Prod.fst = xs[i]? := by
  intro xs
  induction xs with
  | nil =>
    intro ys fill i
    cases ys <;> simp [zip_fill]
  | cons x xs ih =>
    intro ys fill i
    cases ys with
    | nil =>
      cases i with
      | zero => simp [zip_fill]
      | succ j => simpa [zip_fill] using ih [] fill j
    | cons y ys =>
      cases i with
      | zero => simp [zip_fill]
      | succ j => simpa [zip_fill] using ih ys fill j

theorem zip_fill_snd {α : Type} :
    ∀ (xs : List Interval) (ys : List α) (fill : α) (i : Nat),
      i < xs.length →
      ((zip_fill xs ys fill)[i]?).map Prod.snd =
        (if i < ys.length then ys[i]? else some fill) := by
  intro xs
  induction xs with
  | nil =>
    intro ys fill i hi
    simp at hi
  | cons x xs ih =>
    intro ys fill i hi
    cases ys with
    | nil =>
      cases i with
      | zero => simp [zip_fill]
      | succ j =>
        have := ih [] fill j (by simpa using hi)
        simpa [zip_fill] using this
    | cons y ys =>
      cases i with
      | zero => simp [zip_fill]
      | succ j =>
        have := ih ys fill j (by simpa using hi)
        simpa [zip_fill, Nat.succ_lt_succ_iff] using this

theorem match_pairs_fst {α : Type} (ivs : List Interval) (cs : List α)
    (i : Nat) (hi : i < ivs.length) (hcs : 0 < cs.length) :
    ((match_pairs ivs cs)[i]?).map Prod.fst = ivs[i]? := by
  rw [match_pairs]
  have hne : cs.take ivs.length ≠ [] := by
    apply List.ne_nil_of_length_pos
    rw [List.length_take]
    omega
  rw [List.getLast?_eq_getLast _ hne]
  exact zip_fill_fst ivs (cs.take ivs.length) _ i

theorem match_pairs_snd {α : Type} (ivs : List Interval) (cs : List α)
    (i : Nat) (hi : i < ivs.length) (hcs : 0 < cs.length) :
    ((match_pairs ivs cs)[i]?).map Prod.snd =
      cs[min i (cs.length - 1)]? := by
  rw [match_pairs]
  have hlen : (cs.take ivs.length).length = min ivs.length cs.length := by
    simp
  have hne : cs.take ivs.length ≠ [] := by
    apply List.ne_nil_of_length_pos
    omega
  rw [List.getLast?_eq_getLast _ hne]
  rw [zip_fill_snd ivs (cs.take ivs.length) _ i hi]
  by_cases h : i < (cs.take ivs.length).length
  · rw [if_pos h]
    have hip : i < cs.length := by omega
    have himin : min i (cs.length - 1) = i := by omega
    rw [himin]
    exact List.getElem?_take_of_lt (by omega)
  · rw [if_neg h]
    have hip : cs.length ≤ i := by omega
    have hcseq : cs.take ivs.length = cs := List.take_of_length_le (by omega)
    have himin : min i (cs.length - 1) = cs.length - 1 := by omega
    rw [himin]
    have h1 : some ((cs.take ivs.length).getLast hne) =
        (cs.take ivs.length).getLast? :=
      (List.getLast?_eq_getLast _ hne).symm
    rw [h1, List.getLast?_eq_getElem?, hcseq]

theorem zip_fill_length {α : Type} :
    ∀ (xs : List Interval) (ys : List α) (fill : α),
      ys.length ≤ xs.length → (zip_fill xs ys fill).length = xs.length := by
  intro xs
  induction xs with
  | nil =>
    intro ys fill h
    cases ys <;> simp_all [zip_fill]
  | cons x xt ihx =>
    intro ys fill h
    cases ys with
    | nil => simp [zip_fill, ihx [] fill (by simp)]
    | cons y yt => simpa [zip_fill] using ihx yt fill (by simpa using h)

theorem match_pairs_length {α : Type} (ivs : List Interval) (cs : List α)
    (hcs : 0 < cs.length) :
    (match_pairs ivs cs).length = ivs.length := by
  rcases ivs with _ | ⟨iv, ivt⟩
  · simp [match_pairs]
  · rw [match_pairs]
    have hne : cs.take (iv :: ivt).length ≠ [] := by
      apply List.ne_nil_of_length_pos
      simp only [List.length_take, List.length_cons]
      omega
    rw [List.getLast?_eq_getLast _ hne]
    rw [zip_fill_length _ _ _ (by simp)]

theorem match_pairs_nil_colors {α : Type} (ivs : List Interval) :
    match_pairs ivs ([] : List α) = [] := by
  simp [match_pairs]

theorem match_pairs_nil_intervals {α : Type} (cs : List α) :
    match_pairs [] cs = [] := by
  simp [match_pairs]

/-! ### The ordered pattern collection of `Matcher` -/

theorem filter_ne_length {γ : Type} (ms : List (String × γ)) (r : String)
    (hnd : (ms.map Prod.fst).Nodup) (hmem : r ∈ ms.map Prod.fst) :
    (ms.filter (fun x => decide (x.1 ≠ r))).length + 1 = ms.length := by
  induction ms with
  | nil => simp at hmem
  | cons x t ih =>
    rw [List.map_cons, List.nodup_cons] at hnd
    by_cases hx : x.1 = r
    · have hkeep : t.filter (fun y => decide (y.1 ≠ r)) = t := by
        refine List.filter_eq_self.mpr (fun y hy => ?_)
        simp only [decide_eq_true_eq]
        intro h
        rw [← hx] at h
        exact hnd.1 (List.mem_map.mpr ⟨y, hy, h⟩)
      have hpx : (decide (x.1 ≠ r)) = false := by simp [hx]
      rw [List.filter_cons, hpx]
      simp only [Bool.false_eq_true, if_false]
      rw [hkeep]
      simp
    · have hmem' : r ∈ t.map Prod.fst := by
        rw [List.map_cons] at hmem
        rcases List.mem_cons.mp hmem with h | h
        · exact absurd h.symm hx
        · exact h
      have hrec := ih hnd.2 hmem'
      have hpx : (decide (x.1 ≠ r)) = true := by simp [hx]
      rw [List.filter_cons, hpx]
      simp only [if_true, List.length_cons]
      omega

theorem add_to_patterns_present {γ : Type} (ms : List (String × γ))
    (r : String) (pt : γ) (hmem : r ∈ ms.map Prod.fst) :
    add_to_patterns ms r pt =
      ms.filter (fun x => decide (x.1 ≠ r)) ++ [(r, pt)] := by
  have hany : ms.any (fun x => decide (x.1 = r)) = true := by
    rw [List.any_eq_true]
    obtain ⟨y, hy, hyk⟩ := List.mem_map.mp hmem
    exact ⟨y, hy, by simp [hyk]⟩
  have hany2 : (ms.filter (fun x => decide (x.1 ≠ r))).any
      (fun x => decide (x.1 = r)) = false := by
    rw [← Bool.not_eq_true, List.any_eq_true]
    rintro ⟨y, hy, hyk⟩
    have := (List.mem_filter.mp hy).2
    simp only [decide_eq_true_eq] at this hyk
    exact this hyk
  simp only [add_to_patterns, odictSet, hany, hany2, if_true, if_false,
    Bool.false_eq_true]

theorem store_inv_singleton {α : Type} (k : Interval) (v : α) (h : k.1 < k.2) :
    store_inv [(k, v)] := by
  constructor
  · intro x hx
    have : x = (k, v) := by simpa using hx
    rw [this]
    exact h
  · exact List.pairwise_singleton _ _

/-! ### The claims -/

/-- Claim C1: for every interval store (satisfying the store invariant
maintained by the engine) and every insert of interval `(start, end)`
with `start < end` carrying a payload: after the call, every character
position `p` with `start <= p < end` is colored with the new payload
(and nothing else), and every position outside `[start, end)` retains
exactly its prior colors — in particular surviving remainders of
overlapped intervals keep their original payloads. -/
theorem C1_insert_colors_inside_preserves_outside {α : Type} [DecidableEq α]
    (m : Store α) (s e : Int) (c : α) (hI : store_inv m) (hse : s < e) :
    ∃ m', apply_color s e c m = some m' ∧
      (∀ p c', s ≤ p → p < e → (has_color m' p c' = true ↔ c' = c)) ∧
      (∀ p c', p < s ∨ e ≤ p → has_color m' p c' = has_color m p c') := by
  obtain ⟨m', h1, _, h3, h4⟩ := apply_color_sound hI hse
  exact ⟨m', h1, h3, h4⟩

/-- Witness for C1: inserting `(1, 2) -> "b"` over the store
`{(0, 3): "g"}`. -/
theorem C1_witness :
    store_inv ([((0, 3), "g")] : Store String) ∧ (1 : Int) < 2 ∧
    (∃ m', apply_color 1 2 "b" ([((0, 3), "g")] : Store String) = some m' ∧
      (∀ p c', 1 ≤ p → p < 2 → (has_color m' p c' = true ↔ c' = "b")) ∧
      (∀ p c', p < 1 ∨ 2 ≤ p →
        has_color m' p c' = has_color ([((0, 3), "g")] : Store String) p c')) :=
  ⟨store_inv_singleton (0, 3) "g" (by decide), by decide,
    C1_insert_colors_inside_preserves_outside [((0, 3), "g")] 1 2 "b"
      (store_inv_singleton (0, 3) "g" (by decide)) (by decide)⟩

/-- Claim C2: for every sequence of insert calls with valid intervals
(`start < end`) starting from an empty store, the resulting store
contains no two distinct interval keys that overlap under the strict
half-open test.  (Every intermediate point of a longer sequence is the
result of its own prefix sequence, so this covers every point after
each call.) -/
theorem C2_no_overlap_invariant {α : Type} [DecidableEq α]
    (ops : List (Interval × α)) (hval : ∀ op ∈ ops, op.1.1 < op.1.2) :
    ∃ m, apply_list ops [] = some m ∧
      ∀ I1 ∈ m.map Prod.fst, ∀ I2 ∈ m.map Prod.fst, I1 ≠ I2 →
        ¬(I1.1 < I2.2 ∧ I2.1 < I1.2) := by
  obtain ⟨m, hm, hI, _, _⟩ := apply_list_sound ops [] store_inv_nil hval
  exact ⟨m, hm, store_no_overlap_pairs hI⟩

/-- Witness for C2: the overlapping insert sequence
`(0,2) -> "r"; (1,3) -> "b"`. -/
theorem C2_witness :
    (∀ op ∈ ([((0, 2), "r"), ((1, 3), "b")] : List (Interval × String)),
      op.1.1 < op.1.2) ∧
    (∃ m, apply_list ([((0, 2), "r"), ((1, 3), "b")] : List (Interval × String))
        [] = some m ∧
      ∀ I1 ∈ m.map Prod.fst, ∀ I2 ∈ m.map Prod.fst, I1 ≠ I2 →
        ¬(I1.1 < I2.2 ∧ I2.1 < I1.2)) :=
  ⟨by decide, C2_no_overlap_invariant _ (by decide)⟩

/-- Claim C3: for two rules A added before B (a matcher holding exactly
those two rules), wherever their matches overlap — indeed wherever any
match of B covers a position — the position renders with B's color and
only B's color; and the concrete scenario: rules `("ax", red)`,
`("xc", green)`, `("xbx", blue)` on `"axbxc"` color `a`=red, `xbx`=blue,
`c`=green. -/
theorem C3_later_rule_wins :
    (∀ (nA nB : String) (fA fB : Text → List MatchRes) (ca cb : String)
        (text : Text) (p : Int),
      (∀ mr ∈ fA text, mr.span.1 < mr.span.2) →
      (∀ mr ∈ fB text, mr.span.1 < mr.span.2) →
      (∃ mr ∈ fA text, covers mr.span p = true) →
      (∃ mr ∈ fB text, covers mr.span p = true) →
      ∃ st, matcher_match [(nA, whole_rule fA ca), (nB, whole_rule fB cb)]
          text = some st ∧ ∀ c', (has_color st p c' = true ↔ c' = cb)) ∧
    (matcher_match scenario_rules scenario_text = some scenario_store ∧
      colors_at scenario_store 0 = ["red"] ∧
      colors_at scenario_store 1 = ["blue"] ∧
      colors_at scenario_store 2 = ["blue"] ∧
      colors_at scenario_store 3 = ["blue"] ∧
      colors_at scenario_store 4 = ["green"]) := by
  constructor
  · intro nA nB fA fB ca cb text p hA hB _ hpB
    exact two_rule_match nA nB fA fB ca cb text p hA hB hpB
  · exact ⟨by decide, by decide, by decide, by decide, by decide, by decide⟩

/-- Witness for C3: the literal rules `("ax", red)` (added first) and
`("xbx", blue)` (added second) overlap at position 1 of `"axbxc"`; the
position renders blue. -/
theorem C3_witness :
    (∀ mr ∈ lit_regex "ax" scenario_text, mr.span.1 < mr.span.2) ∧
    (∀ mr ∈ lit_regex "xbx" scenario_text, mr.span.1 < mr.span.2) ∧
    (∃ mr ∈ lit_regex "ax" scenario_text, covers mr.span 1 = true) ∧
    (∃ mr ∈ lit_regex "xbx" scenario_text, covers mr.span 1 = true) ∧
    (∃ st, matcher_match [("ax", whole_rule (lit_regex "ax") "red"),
        ("xbx", whole_rule (lit_regex "xbx") "blue")] scenario_text = some st ∧
      ∀ c', (has_color st 1 c' = true ↔ c' = "blue")) :=
  ⟨by decide, by decide, by decide, by decide,
    C3_later_rule_wins.1 "ax" "xbx" (lit_regex "ax") (lit_regex "xbx")
      "red" "blue" scenario_text 1 (by decide) (by decide) (by decide)
      (by decide)⟩

/-- Claim C4: the overlap query returns exactly the stored intervals `I`
with `I.start < interval.end` and `interval.start < I.end` (touching
endpoints do not overlap; the query is a pure function of the store),
and the concrete examples over the store `{(1,5): _, (6,8): _}`. -/
theorem C4_overlap_query_exact :
    (∀ {α : Type} (m : Store α) (i k : Interval),
      k ∈ overlap m i ↔ k ∈ m.map Prod.fst ∧ (k.1 < i.2 ∧ i.1 < k.2)) ∧
    overlap c4_store (0, 1) = [] ∧
    overlap c4_store (1, 2) = [(1, 5)] ∧
    overlap c4_store (5, 6) = [] ∧
    overlap c4_store (4, 10) = [(1, 5), (6, 8)] ∧
    overlap c4_store (10, 10) = [] := by
  refine ⟨?_, by decide, by decide, by decide, by decide, by decide⟩
  intro α m i k
  rw [mem_overlap_iff, interval_overlap_true_iff]

/-- Counterexample for C5: a capture group that did not participate in
the match is not skipped; the match call errors.  On the pattern
`(a)|(b)` (matched against `"a"`, where group 2 does not participate)
`Matcher.match` raises instead of returning a colored string. -/
theorem C5_counterexample_nonparticipating_group_errors :
    matcher_match alt_matcher text_a = none := by decide

/-- Claim C5 as amended: a capture group that did not participate in a
match is reported by the regex engine with the sentinel span `(-1, -1)`;
inserting that span always fails the `start < end` assertion of
`Intervals.__setitem__`, so the match call raises an error at that group
instead of skipping it. -/
theorem C5_sentinel_insert_fails :
    alt_regex text_a = [⟨(0, 1), [(0, 1), (-1, -1)]⟩] ∧
    (∀ (c : String) (m : Store String), apply_color (-1) (-1) c m = none) ∧
    matcher_match alt_matcher text_a = none :=
  ⟨rfl, fun _ _ => apply_color_none (by omega), by decide⟩

/-- Claim C6: with `g` capture groups and `p` payloads, group `i`
receives payload `min(i, p)` (0-indexed: `min i (p-1)`), the pair count
equals the group count, extra payloads beyond the group count are
ignored (truncation), zero payloads or zero groups make the match a
no-op rather than an error, and the concrete scenario: 3 groups with
payloads `[P1, P2]` color the groups `P1, P2, P2`. -/
theorem C6_payload_repeat_truncate_skip :
    (∀ (ivs : List Interval) (cs : List String) (i : Nat),
      i < ivs.length → 0 < cs.length →
      ((match_pairs ivs cs).length = ivs.length ∧
        ((match_pairs ivs cs)[i]?).map Prod.fst = ivs[i]? ∧
        ((match_pairs ivs cs)[i]?).map Prod.snd = cs[min i (cs.length - 1)]?)) ∧
    (∀ (ivs : List Interval) (cs : List String),
      match_pairs ivs cs = match_pairs ivs (cs.take ivs.length)) ∧
    (∀ (st : Store String) (ivs : List Interval),
      apply_list (match_pairs ivs ([] : List String)) st = some st) ∧
    (∀ (st : Store String) (cs : List String),
      apply_list (match_pairs [] cs) st = some st) ∧
    (match_pairs [(0, 1), (1, 2), (2, 3)] ["P1", "P2"] =
        [((0, 1), "P1"), ((1, 2), "P2"), ((2, 3), "P2")] ∧
      matcher_match tri_matcher text_abc =
        some [((0, 1), "P1"), ((1, 2), "P2"), ((2, 3), "P2")]) := by
  refine ⟨?_, ?_, ?_, ?_, by decide, by decide⟩
  · intro ivs cs i hi hcs
    exact ⟨match_pairs_length ivs cs hcs, match_pairs_fst ivs cs i hi hcs,
      match_pairs_snd ivs cs i hi hcs⟩
  · intro ivs cs
    rw [match_pairs, match_pairs]
    simp [List.take_take]
  · intro st ivs
    rw [match_pairs_nil_colors]
    rfl
  · intro st cs
    rw [match_pairs_nil_intervals]
    rfl

/-- Witness for C6: three intervals with two payloads; the third
interval receives the second (last) payload. -/
theorem C6_witness :
    (2 : Nat) < ([(0, 2), (3, 5), (6, 7)] : List Interval).length ∧
    (0 : Nat) < (["a", "b"] : List String).length ∧
    ((match_pairs [(0, 2), (3, 5), (6, 7)] ["a", "b"]).length =
        ([(0, 2), (3, 5), (6, 7)] : List Interval).length ∧
      ((match_pairs [(0, 2), (3, 5), (6, 7)] ["a", "b"])[2]?).map Prod.fst =
        ([(0, 2), (3, 5), (6, 7)] : List Interval)[2]? ∧
      ((match_pairs [(0, 2), (3, 5), (6, 7)] ["a", "b"])[2]?).map Prod.snd =
        (["a", "b"] : List String)[min 2 ((["a", "b"] : List String).length - 1)]?) :=
  ⟨by decide, by decide,
    C6_payload_repeat_truncate_skip.1 [(0, 2), (3, 5), (6, 7)] ["a", "b"] 2
      (by decide) (by decide)⟩

/-- Claim C7: re-adding a rule whose pattern string is identical to an
already-added one replaces that rule's payload, leaves the rule count
unchanged, and moves the rule to the end of the application order, every
other rule keeping its position before it. -/
theorem C7_readd_replaces_and_moves_to_end {γ : Type}
    (ms : List (String × γ)) (r : String) (pt : γ)
    (hnd : (ms.map Prod.fst).Nodup) (hmem : r ∈ ms.map Prod.fst) :
    (add_to_patterns ms r pt).length = ms.length ∧
    (add_to_patterns ms r pt).getLast? = some (r, pt) ∧
    (add_to_patterns ms r pt).dropLast =
      ms.filter (fun x => decide (x.1 ≠ r)) ∧
    (add_to_patterns ms r pt).find? (fun x => decide (x.1 = r)) =
      some (r, pt) := by
  rw [add_to_patterns_present ms r pt hmem]
  refine ⟨?_, List.getLast?_concat _, List.dropLast_concat, ?_⟩
  · rw [List.length_append]
    have := filter_ne_length ms r hnd hmem
    simp only [List.length_cons, List.length_nil]
    omega
  · have hnone : (ms.filter (fun x => decide (x.1 ≠ r))).find?
        (fun x => decide (x.1 = r)) = none := by
      rw [List.find?_eq_none]
      intro x hx
      have := (List.mem_filter.mp hx).2
      simp only [decide_eq_true_eq] at this ⊢
      exact this
    rw [List.find?_append, hnone, Option.none_or]
    simp [List.find?]

/-- Witness for C7: re-adding pattern `"a"` with payload `3` to
`[("a", 1), ("b", 2)]`. -/
theorem C7_witness :
    ((([("a", 1), ("b", 2)] : List (String × Nat)).map Prod.fst).Nodup) ∧
    ("a" ∈ ([("a", 1), ("b", 2)] : List (String × Nat)).map Prod.fst) ∧
    ((add_to_patterns [("a", 1), ("b", 2)] "a" (3 : Nat)).length =
        ([("a", 1), ("b", 2)] : List (String × Nat)).length ∧
      (add_to_patterns [("a", 1), ("b", 2)] "a" (3 : Nat)).getLast? =
        some ("a", 3) ∧
      (add_to_patterns [("a", 1), ("b", 2)] "a" (3 : Nat)).dropLast =
        ([("a", 1), ("b", 2)] : List (String × Nat)).filter
          (fun x => decide (x.1 ≠ "a")) ∧
      (add_to_patterns [("a", 1), ("b", 2)] "a" (3 : Nat)).find?
          (fun x => decide (x.1 = "a")) = some ("a", 3)) :=
  ⟨by decide, by decide,
    C7_readd_replaces_and_moves_to_end [("a", 1), ("b", 2)] "a" 3
      (by decide) (by decide)⟩

/-- Claim C8: inserting the interval `(n, n)` or `(n, n-1)` always fails
with the interval-validity error, both at the raw store assignment
(`Intervals.__setitem__`) and through `apply_color`, for every integer
`n` and every store state. -/
theorem C8_degenerate_insert_always_fails {α : Type} (n : Int) (m : Store α)
    (v c : α) :
    setItem m (n, n) v = none ∧ setItem m (n, n - 1) v = none ∧
    apply_color n n c m = none ∧ apply_color n (n - 1) c m = none := by
  refine ⟨?_, ?_, apply_color_none (by omega), apply_color_none (by omega)⟩
  · rw [setItem, if_neg]
    simp only
    omega
  · rw [setItem, if_neg]
    simp only
    omega

/-- Claim C9 as amended: `Matcher.match` applies a rule's insertions in
queue order — matches in `finditer` order, and within a single match of
a group rule in capture-group index order.  For a whole-match rule whose
`finditer` output is in the standard non-overlapping left-to-right
order, that queue is strictly ascending by interval start; a group
rule's captures, however, need not be. -/
theorem C9_insertions_in_queue_order :
    (∀ (st : Store String) (pt : Pattern String) (text : Text),
      run_pattern st pt text = apply_list (rule_insertions pt text) st) ∧
    (∀ (f : Text → List MatchRes) (c : String) (text : Text),
      (∀ mr ∈ f text, mr.span.1 < mr.span.2) →
      (f text).Pairwise (fun a b => a.span.2 ≤ b.span.1) →
      (rule_insertions (whole_rule f c) text).Pairwise
        (fun q1 q2 => q1.1.1 < q2.1.1)) :=
  ⟨fun st pt text => run_pattern_eq_queue st pt text,
    fun f c text hval hord => whole_rule_queue_sorted f c text hval hord⟩

/-- Witness for C9: the literal rule `"x"` on `"axbxc"` has the
ascending queue `[(1,2), (3,4)]`. -/
theorem C9_witness :
    (∀ mr ∈ lit_regex "x" scenario_text, mr.span.1 < mr.span.2) ∧
    ((lit_regex "x" scenario_text).Pairwise
      (fun a b => a.span.2 ≤ b.span.1)) ∧
    ((rule_insertions (whole_rule (lit_regex "x") "blue") scenario_text).Pairwise
      (fun q1 q2 => q1.1.1 < q2.1.1)) :=
  ⟨by decide, by decide,
    C9_insertions_in_queue_order.2 (lit_regex "x") "blue" scenario_text
      (by decide) (by decide)⟩

/-- Counterexample for C9: the group rule on `(?:(a)|(b))+` against
`"ba"` queues its per-capture-group insertions in group-index order
`[(1,2), (0,1)]`, which is not ascending by interval start — so the
insertions of a single match of a group rule are not applied in
left-to-right span order. -/
theorem C9_counterexample_group_queue_not_ascending :
    (rule_insertions ba_rule text_ba).map Prod.fst = [(1, 2), (0, 1)] ∧
    ¬ (rule_insertions ba_rule text_ba).Pairwise
        (fun q1 q2 => q1.1.1 ≤ q2.1.1) :=
  ⟨by decide, by decide⟩

/-- Claim C10: calling `apply_color` with `start >= end` raises (returns
`none`), and the per-character coloring represented by the store is
unchanged by the truncation that ran before the failing assertion: every
position keeps exactly the color(s) it had (a containing interval may
merely have been split into equal-colored fragments). -/
theorem C10_failed_insert_preserves_coloring {α : Type} [DecidableEq α]
    (m : Store α) (s e : Int) (c : α) (hI : store_inv m) (hes : e ≤ s) :
    apply_color s e c m = none ∧
      ∀ p c', has_color (truncate_overlaps m s e) p c' = has_color m p c' :=
  ⟨apply_color_none hes, truncate_degenerate hI.1 hI.2 hes⟩

/-- Witness for C10: the degenerate call `apply_color 5 3` over the
store `{(1, 8): "r"}` fails, and position 4 keeps its color. -/
theorem C10_witness :
    store_inv ([((1, 8), "r")] : Store String) ∧ (3 : Int) ≤ 5 ∧
    apply_color 5 3 "b" ([((1, 8), "r")] : Store String) = none ∧
    has_color (truncate_overlaps ([((1, 8), "r")] : Store String) 5 3) 4 "r" =
      has_color ([((1, 8), "r")] : Store String) 4 "r" :=
  ⟨store_inv_singleton (1, 8) "r" (by decide), by decide,
    (C10_failed_insert_preserves_coloring [((1, 8), "r")] 5 3 "b"
      (store_inv_singleton (1, 8) "r" (by decide)) (by decide)).1,
    (C10_failed_insert_preserves_coloring [((1, 8), "r")] 5 3 "b"
      (store_inv_singleton (1, 8) "r" (by decide)) (by decide)).2 4 "r"⟩

end Grec

